import Mathlib

/-!
Verification development for the benchmark-action pipeline.

Shallow embedding of the three core scripts:
* scripts/detect_regression.py  — per-metric and run-level regression classification
* scripts/calculate_rolling_baseline.py — rolling-average baseline aggregation
* scripts/push_to_dashboard.py — history/manifest synchronization with conflict retry

Numeric metric values are modelled as rationals, JSON objects as Lean
structures, JSON mappings as association lists (key order = insertion order,
as in Python dicts).
-/

namespace BenchAction

/-! ## Association-list helpers (model of Python dict access) -/

/-- First-match lookup in an association list (Python `d[k]` / `k in d`). -/
def lookupA {β : Type _} : List (String × β) → String → Option β
  | [], _ => none
  | (k, v) :: rest, key => if k = key then some v else lookupA rest key

/-- `k in d` for an association list. -/
def containsKey {β : Type _} (l : List (String × β)) (k : String) : Bool :=
  l.any (fun kv => kv.1 = k)

/-! ## detect_regression.py -/

/-- The three metric keys checked by the script. -/
inductive MetricKey
  | latency
  | throughput
  | memory
deriving DecidableEq, Repr

/-- Direction policy: `increase` means an increase is a regression. -/
inductive Direction
  | increase
  | decrease
deriving DecidableEq, Repr

/-- Per-metric classification result of `_check_metric`
(`None` is modelled by `Option.none`). -/
inductive Cls
  | regression
  | improvement
deriving DecidableEq, Repr

/-- A benchmark entry as read by `detect_regression.py`: each metric is an
optional numeric value (`bench.get(key, {}).get("value", 0)` defaults a
missing metric to 0, which the caller then skips as non-positive). -/
structure DBench where
  latency : Option ℚ
  throughput : Option ℚ
  memory : Option ℚ
deriving DecidableEq, Repr

/-- `curr_bench.get(key, {}).get("value", 0)` before the `getD 0` default. -/
def DBench.metric (b : DBench) : MetricKey → Option ℚ
  | .latency => b.latency
  | .throughput => b.throughput
  | .memory => b.memory

/-- The `_METRICS` table of the script (labels omitted: they only feed
log-message text). -/
def METRICS : List (MetricKey × Direction) :=
  [(.latency, .increase), (.throughput, .decrease), (.memory, .increase)]

/-- Embedding of `_check_metric`: classify a single metric of one benchmark
against the baseline. -/
def check_metric (key : MetricKey) (curr_bench base_bench : DBench)
    (threshold : ℚ) (direction : Direction) : Option Cls :=
  let curr_val := (curr_bench.metric key).getD 0
  let base_val := (base_bench.metric key).getD 0
  if base_val ≤ 0 ∨ curr_val ≤ 0 then none
  else
    let change := (curr_val - base_val) / base_val
    let is_regression : Bool :=
      match direction with
      | .increase => decide (threshold < change)
      | .decrease => decide (change < -threshold)
    let is_improvement : Bool :=
      match direction with
      | .increase => decide (change < -threshold)
      | .decrease => decide (threshold < change)
    if is_regression then some .regression
    else if is_improvement then some .improvement
    else none

/-- Flag update of `main`'s loop body: set `has_any_regression` /
`has_any_improvement` according to one `_check_metric` result. -/
def clsStep (res : Option Cls) (fl : Bool × Bool) : Bool × Bool :=
  match res with
  | some .regression => (true, fl.2)
  | some .improvement => (fl.1, true)
  | none => fl

/-- The two accumulator flags of `main`'s loop:
`(has_any_regression, has_any_improvement)` after folding one benchmark's
three metrics. -/
def foldMetrics (t : ℚ) (cb bb : DBench) (flags : Bool × Bool) : Bool × Bool :=
  METRICS.foldl (fun fl kd => clsStep (check_metric kd.1 cb bb t kd.2) fl) flags

/-- One iteration of the benchmark loop of `main`: benchmarks absent from
the baseline are skipped (`continue`). -/
def benchStep (t : ℚ) (baseline : List (String × DBench))
    (flags : Bool × Bool) (nb : String × DBench) : Bool × Bool :=
  match lookupA baseline nb.1 with
  | none => flags
  | some bb => foldMetrics t nb.2 bb flags

/-- The benchmark loop of `main`: iterate over the current snapshot's
benchmarks, skipping names absent from the baseline. -/
def detectFlags (t : ℚ) (current baseline : List (String × DBench)) : Bool × Bool :=
  current.foldl (benchStep t baseline) (false, false)

/-- The `change_type` value emitted to `$GITHUB_OUTPUT`
(empty string = no `change_type` line emitted). -/
def changeType (t : ℚ) (current baseline : List (String × DBench)) : String :=
  let fl := detectFlags t current baseline
  if fl.1 && fl.2 then "mixed"
  else if fl.1 then "regression"
  else if fl.2 then "improvement"
  else ""

/-- Spec-side: some metric of the benchmark `nb` (when present in the
baseline) is classified `c`. -/
def benchHasCls (t : ℚ) (baseline : List (String × DBench)) (c : Cls)
    (nb : String × DBench) : Bool :=
  match lookupA baseline nb.1 with
  | none => false
  | some bb => METRICS.any (fun kd => check_metric kd.1 nb.2 bb t kd.2 = some c)

/-- Spec-side: some metric of some benchmark present in both snapshots is
classified `c`. -/
def anyMetric (t : ℚ) (current baseline : List (String × DBench)) (c : Cls) : Bool :=
  current.any (benchHasCls t baseline c)

/-! ## push_to_dashboard.py — history / manifest data model -/

/-- A dashboard commit entry.  The merge logic of `main` inspects only the
`sha` field; `payload` abstracts the remaining fields (shortSha, message,
timestamp, platform, benchmarks, runUrl), which the merge carries around
unexamined. -/
structure Commit where
  sha : String
  payload : String
deriving DecidableEq, Repr

/-- The per-implementation `history.json` document. -/
structure History where
  implementation : String
  htype : String
  commits : List Commit
deriving DecidableEq, Repr

/-- The fresh document built by `main` when the GET returned 404. -/
def emptyHistory (impl : String) : History :=
  { implementation := impl, htype := "tracked", commits := [] }

/-- The SHA-dedup merge of `main` step 3: if the pushed sha is absent,
prepend the entry (`insert(0, entry)`); otherwise replace every entry whose
sha matches (the list comprehension `entry if c.sha == commit_sha else c`). -/
def mergeCommits (commits : List Commit) (entry : Commit) : List Commit :=
  if entry.sha ∈ commits.map Commit.sha then
    commits.map (fun c => if c.sha = entry.sha then entry else c)
  else
    entry :: commits

/-- Read-or-default plus merge for the history document. -/
def mergeHistory (remote : Option History) (impl : String) (entry : Commit) : History :=
  let h := remote.getD (emptyHistory impl)
  { h with commits := mergeCommits h.commits entry }

/-- One entry of `manifest.json`'s `implementations` array.  `repo = none`
models an absent `repo` key, `tags = []` an absent `tags` key. -/
structure Impl where
  name : String
  itype : String
  commitCount : Nat
  latestCommit : String
  repo : Option String
  tags : List String
deriving DecidableEq, Repr

/-- The `manifest.json` document. -/
structure Manifest where
  implementations : List Impl
  lastUpdated : String
deriving DecidableEq, Repr

/-- Update the first element satisfying `p` (a Python
`for ...: if ...: mutate; break` loop). -/
def updateFirst {α : Type _} (p : α → Bool) (f : α → α) : List α → List α
  | [] => []
  | a :: rest => if p a then f a :: rest else a :: updateFirst p f rest

/-- First manifest loop body: refresh `commitCount` / `latestCommit`. -/
def setCount (historyLen : Nat) (shortSha : String) (i : Impl) : Impl :=
  { i with commitCount := historyLen, latestCommit := shortSha }

/-- Second manifest loop body: set `repo` when a non-default source repo is
configured, and `tags` when tags are configured (otherwise preserved). -/
def setRepoTags (impl sourceRepo : String) (tags : List String) (i : Impl) : Impl :=
  let i := if sourceRepo ≠ "" ∧ sourceRepo ≠ impl
           then { i with repo := some sourceRepo } else i
  if tags ≠ [] then { i with tags := tags } else i

/-- `main` step 4: update (or create) the manifest entry for the current
implementation.  `historyLen` is `len(history["commits"])` after the merge;
`sourceRepo` and `tags` are the `SOURCE_REPO` / `TAGS` configuration. -/
def updateManifest (impl sourceRepo : String) (tags : List String)
    (shortSha : String) (historyLen : Nat) (timestamp : String)
    (remote : Option Manifest) : Manifest :=
  let m := remote.getD { implementations := [], lastUpdated := timestamp }
  let found := m.implementations.any (fun i => i.name = impl)
  let impls := updateFirst (fun i => i.name = impl)
    (setCount historyLen shortSha) m.implementations
  let impls := updateFirst (fun i => i.name = impl)
    (setRepoTags impl sourceRepo tags) impls
  let impls :=
    if found then impls
    else impls ++ [{ name := impl, itype := "tracked",
                     commitCount := historyLen, latestCommit := shortSha,
                     repo := if sourceRepo ≠ "" ∧ sourceRepo ≠ impl
                             then some sourceRepo else none,
                     tags := tags }]
  { implementations := impls, lastUpdated := timestamp }

/-- The two remote documents of the dashboard repository. -/
structure RemoteState where
  history : Option History
  manifest : Option Manifest
deriving DecidableEq, Repr

/-- Outcome of one run of `main`, with which remote writes happened.
`attemptedManifest` records that control reached the manifest `put_file`
call (which happens only after the history write returned). -/
structure RunOutcome where
  ok : Bool
  final : RemoteState
  wroteHistory : Bool
  attemptedManifest : Bool
  wroteManifest : Bool
deriving DecidableEq, Repr

/-- Straight-line model of `main` steps 3–4: merge and PUT the history
document, then read, update and PUT the manifest.  `histPutOk` / `manPutOk`
say whether the corresponding `put_file` returns normally; a raising
`put_file` aborts the run at that point, leaving later writes unattempted. -/
def runMain (impl sourceRepo : String) (tags : List String) (entry : Commit)
    (shortSha timestamp : String) (histPutOk manPutOk : Bool)
    (s : RemoteState) : RunOutcome :=
  let merged := mergeHistory s.history impl entry
  if histPutOk = false then
    { ok := false, final := s, wroteHistory := false,
      attemptedManifest := false, wroteManifest := false }
  else
    let s1 : RemoteState := { s with history := some merged }
    let m := updateManifest impl sourceRepo tags shortSha
      merged.commits.length timestamp s1.manifest
    if manPutOk = false then
      { ok := false, final := s1, wroteHistory := true,
        attemptedManifest := true, wroteManifest := false }
    else
      { ok := true, final := { s1 with manifest := some m },
        wroteHistory := true, attemptedManifest := true, wroteManifest := true }

/-! ## push_to_dashboard.py — put_file retry loop -/

/-- HTTP outcome of one PUT attempt. -/
inductive Resp
  | ok
  | http (code : Nat)
deriving DecidableEq, Repr

/-- Environment for one `put_file` call: the store's response to the n-th
attempt, and the document/sha returned by the `get_file` re-read that the
handler performs after a conflicting attempt n (`_, file_sha = get_file(path)`
— the parsed document is read but discarded; only the sha is kept). -/
structure PutEnv where
  resp : Nat → Resp
  refetchDoc : Nat → Option History
  refetchSha : Nat → Option String

/-- Result of `put_file`: normal return, raised HTTPError, or the
(unreachable) fall-through of the `for` loop. -/
inductive PutOutcome
  | success (attempt : Nat) (written : History) (shaUsed : Option String) (delay : Nat)
  | raised (code : Nat) (attempt : Nat) (delay : Nat)
  | fellThrough
deriving DecidableEq, Repr

def MAX_RETRIES : Nat := 3

def RETRY_DELAY : Nat := 2

/-- The `for attempt in range(1, MAX_RETRIES + 1)` loop of `put_file`.
The request body's `content` field is fixed before the loop; a 409 on a
non-final attempt sleeps `RETRY_DELAY` and refreshes only `body["sha"]`
from the re-read. `delay` accumulates the sleeps. -/
def putLoop (env : PutEnv) (content : History) :
    Nat → Nat → Option String → Nat → PutOutcome
  | 0, _, _, _ => .fellThrough
  | fuel + 1, attempt, sha, delay =>
    match env.resp attempt with
    | .ok => .success attempt content sha delay
    | .http code =>
      if code = 409 ∧ attempt < MAX_RETRIES then
        putLoop env content fuel (attempt + 1) (env.refetchSha attempt)
          (delay + RETRY_DELAY)
      else .raised code attempt delay

/-- Embedding of `put_file path content file_sha message` (path and message
do not affect control flow; the store's behaviour is in `env`). -/
def put_file (env : PutEnv) (content : History) (file_sha : Option String) : PutOutcome :=
  putLoop env content MAX_RETRIES 1 file_sha 0

/-- The sha `put_file` presents on attempt `k`: the caller's sha on the
first attempt, afterwards the sha re-fetched after the previous conflict. -/
def shaAt (env : PutEnv) (file_sha : Option String) (k : Nat) : Option String :=
  if k = 1 then file_sha else env.refetchSha (k - 1)

/-! ## calculate_rolling_baseline.py -/

/-- A metric sample: `{"value": ..., "unit": ...}`. -/
structure Metric where
  value : ℚ
  unit : String
deriving DecidableEq, Repr

/-- One benchmark entry of a historical result snapshot.  `test_vectors`
and `extraMeta` stand for the `test_vectors` / `metadata` fields the
aggregator copies through verbatim from the representative sample; their
internal structure is irrelevant, so they are kept opaque. -/
structure BBench where
  latency : Option Metric
  throughput : Option Metric
  memory : Option Metric
  test_vectors : Option String
  extraMeta : Option String
deriving DecidableEq, Repr

/-- Snapshot-level `metadata`: the two keys the aggregator writes, plus an
opaque remainder. -/
structure SnapMeta where
  baseline_type : Option String
  sample_count : Option Nat
  extra : Option String
deriving DecidableEq, Repr

/-- A result snapshot file. -/
structure Snapshot where
  benchmarks : List (String × BBench)
  metadata : Option SnapMeta
deriving DecidableEq, Repr

/-- The per-benchmark accumulator `benchmark_data[name]`. -/
structure Agg where
  latencies : List ℚ
  throughputs : List ℚ
  sample : BBench
deriving DecidableEq, Repr

/-- Python dict update `d[k] = f(d[k])`, applied to the (unique) entry with
key `k` of an association list; entries with other keys are untouched. -/
def updateA {β : Type _} : List (String × β) → String → (β → β) → List (String × β)
  | [], _, _ => []
  | (ka, va) :: rest, k, f =>
    (if ka = k then (ka, f va) else (ka, va)) :: updateA rest k f

/-- Body of the collection loop of `calculate_average_baseline` for one
`(name, bench)` item: create the accumulator on first sight of the name
(recording this bench as the representative `sample`), then append the
present latency / throughput values. -/
def stepBench (acc : List (String × Agg)) (p : String × BBench) :
    List (String × Agg) :=
  let acc :=
    if containsKey acc p.1 then acc
    else acc ++ [(p.1, { latencies := [], throughputs := [], sample := p.2 })]
  let acc :=
    match p.2.latency with
    | some m => updateA acc p.1 (fun a => { a with latencies := a.latencies ++ [m.value] })
    | none => acc
  match p.2.throughput with
  | some m => updateA acc p.1 (fun a => { a with throughputs := a.throughputs ++ [m.value] })
  | none => acc

/-- The double loop filling `benchmark_data`. -/
def collectBenchData (results : List Snapshot) : List (String × Agg) :=
  results.foldl (fun acc r => r.benchmarks.foldl stepBench acc) []

/-- Round-half-to-even to an integer (the tie rule of Python's `round`). -/
def roundHalfEven (q : ℚ) : ℤ :=
  let f := ⌊q⌋
  let r := q - (f : ℚ)
  if r < 1/2 then f
  else if 1/2 < r then f + 1
  else if f % 2 = 0 then f else f + 1

/-- Python `round(x, 2)`. -/
def round2 (q : ℚ) : ℚ := (roundHalfEven (q * 100) : ℚ) / 100

/-- Build one baseline benchmark entry from its accumulator: averaged
latency / throughput (when samples exist) with the representative sample's
unit, verbatim `test_vectors` / `metadata`, and no memory field — the
source never writes one. -/
def mkBenchBaseline (a : Agg) : BBench :=
  { latency :=
      if a.latencies.isEmpty then none
      else some { value := round2 (a.latencies.sum / (a.latencies.length : ℚ)),
                  unit := (a.sample.latency.map Metric.unit).getD "ns" },
    throughput :=
      if a.throughputs.isEmpty then none
      else some { value := round2 (a.throughputs.sum / (a.throughputs.length : ℚ)),
                  unit := (a.sample.throughput.map Metric.unit).getD "ops/s" },
    memory := none,
    test_vectors := a.sample.test_vectors,
    extraMeta := a.sample.extraMeta }

/-- Embedding of `calculate_average_baseline` (empty input yields the empty
document `{}`: no benchmarks, no metadata). -/
def calculate_average_baseline (results : List Snapshot) : Snapshot :=
  match results with
  | [] => { benchmarks := [], metadata := none }
  | r0 :: _ =>
    { benchmarks :=
        (collectBenchData results).map (fun na => (na.1, mkBenchBaseline na.2)),
      metadata :=
        some { (r0.metadata.getD { baseline_type := none, sample_count := none, extra := none }) with
               baseline_type := some "rolling_average",
               sample_count := some results.length } }

/-- What `main` of the baseline script writes to `baseline.json`:
either the most recent snapshot verbatim or an averaged document. -/
inductive BaselineOut
  | verbatim (s : Snapshot)
  | averaged (s : Snapshot)
deriving DecidableEq, Repr

def MIN_SAMPLES : Nat := 2

/-- Decision logic of the baseline script's `main`, given the loaded
historical snapshots (most recent first, as `load_historical_results`
sorts them): below `MIN_SAMPLES` fall back to the most recent snapshot
verbatim (writing nothing when there are none), otherwise average. -/
def rollingBaselineMain (results : List Snapshot) : Option BaselineOut :=
  if results.length < MIN_SAMPLES then
    match results.head? with
    | some r => some (.verbatim r)
    | none => none
  else some (.averaged (calculate_average_baseline results))

/-! ## Spec-side definitions for the baseline claims -/

/-- The benchmark entries for `name` contributed by the snapshots that
contain this benchmark, in window order. -/
def snapshotEntries (results : List Snapshot) (name : String) : List BBench :=
  results.filterMap (fun r => lookupA r.benchmarks name)

/-- All latency samples for `name` over the window. -/
def latValues (results : List Snapshot) (name : String) : List ℚ :=
  (snapshotEntries results name).filterMap (fun b => b.latency.map Metric.value)

/-- All throughput samples for `name` over the window. -/
def thrValues (results : List Snapshot) (name : String) : List ℚ :=
  (snapshotEntries results name).filterMap (fun b => b.throughput.map Metric.value)

/-- Arithmetic mean. -/
def mean (l : List ℚ) : ℚ := l.sum / (l.length : ℚ)

/-- Spec-side: the directional significance test — `change` exceeds the
threshold in the regression direction of the metric. -/
def directionalExceeds (dir : Direction) (t change : ℚ) : Prop :=
  match dir with
  | .increase => t < change
  | .decrease => change < -t

/-- The opposite direction (the improvement sense of a metric). -/
def oppositeDir : Direction → Direction
  | .increase => .decrease
  | .decrease => .increase

/-- Spec-side: some metric of some benchmark present in both the current
and the baseline snapshot is classified `c`. -/
def RunCls (t : ℚ) (current baseline : List (String × DBench)) (c : Cls) : Prop :=
  ∃ nb ∈ current, ∃ bb, lookupA baseline nb.1 = some bb ∧
    ∃ kd ∈ METRICS, check_metric kd.1 nb.2 bb t kd.2 = some c

/-- Extend an accumulator with one occurrence of the benchmark: append the
present latency / throughput values, keep the representative sample. -/
def aggExtend (a : Agg) (b : BBench) : Agg :=
  { latencies := a.latencies ++ (b.latency.map Metric.value).toList,
    throughputs := a.throughputs ++ (b.throughput.map Metric.value).toList,
    sample := a.sample }

/-- Fold a list of benchmark occurrences into an optional accumulator; the
first occurrence creates the accumulator with itself as the sample. -/
def combineAgg (o : Option Agg) (os : List BBench) : Option Agg :=
  os.foldl
    (fun acc b =>
      match acc with
      | none => some (aggExtend { latencies := [], throughputs := [], sample := b } b)
      | some a => some (aggExtend a b))
    o

/-- The benchmark entries under key `name` in a flat `(name, bench)` item
list, in order. -/
def occsP (P : List (String × BBench)) (name : String) : List BBench :=
  (P.filter (fun p => p.1 = name)).map Prod.snd

/-- The first-seen (representative) sample for a benchmark name. -/
def firstSample (results : List Snapshot) (name : String) : Option BBench :=
  (snapshotEntries results name).head?

/-- All memory samples for `name` over the window (what the data-model
sentence of the spec would have the aggregator average). -/
def memValues (results : List Snapshot) (name : String) : List ℚ :=
  (snapshotEntries results name).filterMap (fun b => b.memory.map Metric.value)

/-! ## Concrete snapshots for the baseline claims -/

/-- First (most recent) historical snapshot of the concrete corpus. -/
def c4Snap1 : Snapshot :=
  { benchmarks :=
      [("b", { latency := some { value := 10, unit := "ns" },
               throughput := some { value := 100, unit := "ops/s" },
               memory := some { value := 10, unit := "MB" },
               test_vectors := none, extraMeta := none })],
    metadata := none }

/-- Second historical snapshot of the concrete corpus. -/
def c4Snap2 : Snapshot :=
  { benchmarks :=
      [("b", { latency := some { value := 20, unit := "ns" },
               throughput := some { value := 300, unit := "ops/s" },
               memory := some { value := 20, unit := "MB" },
               test_vectors := none, extraMeta := none })],
    metadata := none }

/-- A concrete snapshot for the fallback claim. -/
def c7Snap : Snapshot :=
  { benchmarks :=
      [("x", { latency := some { value := 42, unit := "ns" },
               throughput := none,
               memory := some { value := 7, unit := "MB" },
               test_vectors := none, extraMeta := none })],
    metadata := some { baseline_type := none, sample_count := none, extra := some "os" } }

/-! ## Concrete store behaviours for the put_file claims -/

/-- The entry pushed in the concrete conflict scenario. -/
def c1Entry : Commit := { sha := "newsha", payload := "p" }

/-- The history document obtained at the first read. -/
def c1FirstDoc : History := { implementation := "impl", htype := "tracked", commits := [] }

/-- The history document the store holds at the re-read after the conflict:
a concurrent run has prepended another commit in the meantime. -/
def c1LastDoc : History :=
  { implementation := "impl", htype := "tracked",
    commits := [{ sha := "other", payload := "q" }] }

/-- Store behaviour: the first PUT is rejected with 409, the second is
accepted; the conflict re-read returns `c1LastDoc` with a fresh sha. -/
def c1Env : PutEnv :=
  { resp := fun k => if k = 1 then .http 409 else .ok,
    refetchDoc := fun _ => some c1LastDoc,
    refetchSha := fun _ => some "sha2" }

/-- Store behaviour: every PUT attempt is rejected with 409. -/
def c8Env : PutEnv :=
  { resp := fun _ => .http 409,
    refetchDoc := fun _ => none,
    refetchSha := fun _ => none }

/-! ## Theorems -/

/-- `clsStep` just or-accumulates the two flag tests. -/
theorem clsStep_eq (res : Option Cls) (fl : Bool × Bool) :
    clsStep res fl = (fl.1 || decide (res = some Cls.regression),
                      fl.2 || decide (res = some Cls.improvement)) := by
  rcases res with _ | c
  · simp [clsStep]
  · cases c <;> simp [clsStep]

/-- Folding `clsStep` over any metric list computes the two any-flags. -/
theorem foldClsStep_eq (g : MetricKey × Direction → Option Cls)
    (l : List (MetricKey × Direction)) (flags : Bool × Bool) :
    l.foldl (fun fl kd => clsStep (g kd) fl) flags =
      (flags.1 || l.any (fun kd => decide (g kd = some Cls.regression)),
       flags.2 || l.any (fun kd => decide (g kd = some Cls.improvement))) := by
  induction l generalizing flags with
  | nil => simp
  | cons kd rest ih =>
    rw [List.foldl_cons, ih, clsStep_eq]
    simp [Bool.or_assoc]

/-- `foldMetrics` computes the per-benchmark any-flags. -/
theorem foldMetrics_eq (t : ℚ) (cb bb : DBench) (flags : Bool × Bool) :
    foldMetrics t cb bb flags =
      (flags.1 || METRICS.any (fun kd => decide (check_metric kd.1 cb bb t kd.2 = some Cls.regression)),
       flags.2 || METRICS.any (fun kd => decide (check_metric kd.1 cb bb t kd.2 = some Cls.improvement))) :=
  foldClsStep_eq (fun kd => check_metric kd.1 cb bb t kd.2) METRICS flags

/-- `benchStep` or-accumulates the per-benchmark flags. -/
theorem benchStep_eq (t : ℚ) (baseline : List (String × DBench))
    (flags : Bool × Bool) (nb : String × DBench) :
    benchStep t baseline flags nb =
      (flags.1 || benchHasCls t baseline .regression nb,
       flags.2 || benchHasCls t baseline .improvement nb) := by
  unfold benchStep benchHasCls
  cases lookupA baseline nb.1 with
  | none => simp
  | some bb => simp [foldMetrics_eq]

/-- The benchmark fold computes the two run-level any-flags. -/
theorem foldBenchStep_eq (t : ℚ) (baseline : List (String × DBench))
    (l : List (String × DBench)) (flags : Bool × Bool) :
    l.foldl (benchStep t baseline) flags =
      (flags.1 || l.any (benchHasCls t baseline .regression),
       flags.2 || l.any (benchHasCls t baseline .improvement)) := by
  induction l generalizing flags with
  | nil => simp
  | cons nb rest ih => simp [List.foldl_cons, ih, benchStep_eq, Bool.or_assoc]

/-- `detectFlags` is exactly the pair of existential flags. -/
theorem detectFlags_eq (t : ℚ) (current baseline : List (String × DBench)) :
    detectFlags t current baseline =
      (anyMetric t current baseline .regression,
       anyMetric t current baseline .improvement) := by
  simp [detectFlags, anyMetric, foldBenchStep_eq]

/-- `benchHasCls` decides the inner existential. -/
theorem benchHasCls_eq_true (t : ℚ) (baseline : List (String × DBench))
    (c : Cls) (nb : String × DBench) :
    benchHasCls t baseline c nb = true ↔
      ∃ bb, lookupA baseline nb.1 = some bb ∧
        ∃ kd ∈ METRICS, check_metric kd.1 nb.2 bb t kd.2 = some c := by
  unfold benchHasCls
  cases h : lookupA baseline nb.1 with
  | none => simp
  | some bb => simp [List.any_eq_true]

/-- `anyMetric` decides `RunCls`. -/
theorem anyMetric_iff (t : ℚ) (current baseline : List (String × DBench)) (c : Cls) :
    anyMetric t current baseline c = true ↔ RunCls t current baseline c := by
  simp [anyMetric, RunCls, List.any_eq_true, benchHasCls_eq_true]

/-- C3: run-level aggregation over all three metrics of every benchmark
present in both snapshots — `mixed` iff some metric is a regression and
some metric is an improvement, `regression` iff some regression and no
improvement, `improvement` symmetrically, and no `change_type` (empty
string) iff nothing is flagged. -/
theorem C3_run_level_classification (t : ℚ)
    (current baseline : List (String × DBench)) :
    (changeType t current baseline = "mixed" ↔
      RunCls t current baseline .regression ∧ RunCls t current baseline .improvement) ∧
    (changeType t current baseline = "regression" ↔
      RunCls t current baseline .regression ∧ ¬ RunCls t current baseline .improvement) ∧
    (changeType t current baseline = "improvement" ↔
      RunCls t current baseline .improvement ∧ ¬ RunCls t current baseline .regression) ∧
    (changeType t current baseline = "" ↔
      ¬ RunCls t current baseline .regression ∧ ¬ RunCls t current baseline .improvement) := by
  have hR := anyMetric_iff t current baseline .regression
  have hI := anyMetric_iff t current baseline .improvement
  unfold changeType
  rw [detectFlags_eq]
  cases hb : anyMetric t current baseline .regression <;>
    cases hc : anyMetric t current baseline .improvement <;>
    rw [hb] at hR <;> rw [hc] at hI <;> simp at hR hI <;> simp [hR, hI]

/-- C2: for every threshold `t > 0` and every metric key with its direction
from the `_METRICS` table (latency/memory: increase = regression,
throughput: decrease = regression): a non-positive (or missing, hence
defaulted to 0) baseline or current value is skipped; otherwise with
`change = (curr - base) / base` the classification is regression iff the
directional test exceeds `t`, improvement iff it exceeds `t` in the
opposite sense, and none iff `|change| ≤ t` (boundary values included). -/
theorem C2_check_metric_classification (t : ℚ) (ht : 0 < t)
    (key : MetricKey) (dir : Direction) (hm : (key, dir) ∈ METRICS)
    (cb bb : DBench) :
    (((bb.metric key).getD 0 ≤ 0 ∨ (cb.metric key).getD 0 ≤ 0) →
        check_metric key cb bb t dir = none) ∧
    (0 < (bb.metric key).getD 0 → 0 < (cb.metric key).getD 0 →
      (check_metric key cb bb t dir = some .regression ↔
        directionalExceeds dir t
          (((cb.metric key).getD 0 - (bb.metric key).getD 0) / (bb.metric key).getD 0)) ∧
      (check_metric key cb bb t dir = some .improvement ↔
        directionalExceeds (oppositeDir dir) t
          (((cb.metric key).getD 0 - (bb.metric key).getD 0) / (bb.metric key).getD 0)) ∧
      (check_metric key cb bb t dir = none ↔
        |((cb.metric key).getD 0 - (bb.metric key).getD 0) / (bb.metric key).getD 0| ≤ t)) := by
  clear hm
  set curr := (cb.metric key).getD 0 with hcurr
  set base := (bb.metric key).getD 0 with hbase
  constructor
  · intro h
    unfold check_metric
    rw [if_pos h]
  · intro hb hc
    have hskip : ¬(base ≤ 0 ∨ curr ≤ 0) := by
      push_neg
      exact ⟨hb, hc⟩
    unfold check_metric
    rw [if_neg hskip]
    set change := (curr - base) / base with hchange
    cases dir
    · by_cases hr : t < change
      · have hni : ¬(change < -t) := by linarith
        simp [hr, hni, abs_le, directionalExceeds, oppositeDir]
      · by_cases hi : change < -t
        · simp [hr, hi, abs_le, directionalExceeds, oppositeDir]
        · simp [hr, hi, abs_le, directionalExceeds, oppositeDir]
          all_goals constructor <;> linarith
    · by_cases hr : change < -t
      · have hni : ¬(t < change) := by linarith
        simp [hr, hni, abs_le, directionalExceeds, oppositeDir]
      · by_cases hi : t < change
        · simp [hr, hi, abs_le, directionalExceeds, oppositeDir]
        · simp [hr, hi, abs_le, directionalExceeds, oppositeDir]
          all_goals constructor <;> linarith

/-- The shas of a merged commits list: unchanged on replace-in-place,
the new sha in front on prepend. -/
theorem mergeCommits_map_sha (cs : List Commit) (e : Commit) :
    (mergeCommits cs e).map Commit.sha =
      if e.sha ∈ cs.map Commit.sha then cs.map Commit.sha
      else e.sha :: cs.map Commit.sha := by
  unfold mergeCommits
  split
  · simp only [List.map_map]
    apply List.map_congr_left
    intro c _
    by_cases h : c.sha = e.sha <;> simp [h, Function.comp]
  · simp

/-- The at-most-one-entry-per-sha invariant is preserved by the merge. -/
theorem mergeCommits_sha_nodup (cs : List Commit) (e : Commit)
    (hnd : (cs.map Commit.sha).Nodup) :
    ((mergeCommits cs e).map Commit.sha).Nodup := by
  rw [mergeCommits_map_sha]
  split
  · exact hnd
  · exact List.Nodup.cons (by assumption) hnd

/-- Under the uniqueness invariant, the merged list holds exactly the
pushed entry at the pushed sha. -/
theorem filter_mergeCommits_self (cs : List Commit) (e : Commit)
    (hnd : (cs.map Commit.sha).Nodup) :
    (mergeCommits cs e).filter (fun c => decide (c.sha = e.sha)) = [e] := by
  unfold mergeCommits
  by_cases hin : e.sha ∈ cs.map Commit.sha
  · rw [if_pos hin]
    induction cs with
    | nil => simp at hin
    | cons c rest ih =>
      simp only [List.map_cons, List.nodup_cons] at hnd
      by_cases hc : c.sha = e.sha
      · have hrest : ∀ x ∈ rest, x.sha ≠ e.sha := by
          intro x hx hxe
          exact hnd.1 (hc ▸ hxe ▸ List.mem_map_of_mem Commit.sha hx)
        simp only [List.map_cons, List.filter_cons, hc, if_pos rfl]
        have : (rest.map (fun c => if c.sha = e.sha then e else c)) = rest.map id := by
          apply List.map_congr_left
          intro x hx
          simp [hrest x hx]
        rw [this, List.map_id]
        have hnil : rest.filter (fun c => decide (c.sha = e.sha)) = [] := by
          rw [List.filter_eq_nil_iff]
          intro x hx
          simp [hrest x hx]
        simp [hnil]
      · have hin' : e.sha ∈ rest.map Commit.sha := by
          rcases List.mem_cons.mp hin with h | h
          · exact absurd h.symm hc
          · exact h
        simp only [List.map_cons, List.filter_cons, hc]
        simpa [hc] using ih hnd.2 hin'
  · rw [if_neg hin]
    have hnil : cs.filter (fun c => decide (c.sha = e.sha)) = [] := by
      rw [List.filter_eq_nil_iff]
      intro x hx hxe
      simp only [decide_eq_true_eq] at hxe
      exact hin (hxe ▸ List.mem_map_of_mem Commit.sha hx)
    simp [List.filter_cons, hnil]

/-- C5: pushing the same sha twice is idempotent — the resulting commits
list holds exactly one entry for that sha, and that entry is the second
push's; moreover every merge preserves the at-most-one-entry-per-sha
invariant. -/
theorem C5_history_merge_idempotent (cs : List Commit) (e1 e2 : Commit)
    (hnd : (cs.map Commit.sha).Nodup) (hsha : e1.sha = e2.sha) :
    (mergeCommits (mergeCommits cs e1) e2).countP (fun c => decide (c.sha = e2.sha)) = 1 ∧
    (mergeCommits (mergeCommits cs e1) e2).filter (fun c => decide (c.sha = e2.sha)) = [e2] ∧
    ((mergeCommits (mergeCommits cs e1) e2).map Commit.sha).Nodup ∧
    ∀ e : Commit, ((mergeCommits cs e).map Commit.sha).Nodup := by
  clear hsha
  have h1 := mergeCommits_sha_nodup cs e1 hnd
  have h2 := filter_mergeCommits_self (mergeCommits cs e1) e2 h1
  refine ⟨?_, h2, mergeCommits_sha_nodup _ e2 h1, fun e => mergeCommits_sha_nodup cs e hnd⟩
  rw [List.countP_eq_length_filter, h2]
  rfl

/-- Witness for C5: re-pushing sha "b" with new payload leaves one "b"
entry carrying the second payload. -/
theorem C5_history_merge_idempotent_witness :
    (mergeCommits (mergeCommits [⟨"a", "pa"⟩, ⟨"b", "pb"⟩] ⟨"b", "v1"⟩) ⟨"b", "v2"⟩).filter
        (fun c => decide (c.sha = "b")) = [⟨"b", "v2"⟩] :=
  (C5_history_merge_idempotent [⟨"a", "pa"⟩, ⟨"b", "pb"⟩] ⟨"b", "v1"⟩ ⟨"b", "v2"⟩
    (by decide) rfl).2.1

/-- C10: the merge is a frame on all other entries — entries whose sha
differs from the pushed sha are preserved in content and relative order;
a new sha is inserted only at position 0 (shifting the rest); a matching
sha is replaced at its existing position, with every other position
unchanged. -/
theorem C10_history_merge_frame (cs : List Commit) (e : Commit) :
    ((mergeCommits cs e).filter (fun c => decide (¬ c.sha = e.sha)) =
       cs.filter (fun c => decide (¬ c.sha = e.sha))) ∧
    (e.sha ∉ cs.map Commit.sha →
       (mergeCommits cs e).length = cs.length + 1 ∧
       (mergeCommits cs e)[0]? = some e ∧
       ∀ i : Nat, (mergeCommits cs e)[i + 1]? = cs[i]?) ∧
    (e.sha ∈ cs.map Commit.sha →
       (mergeCommits cs e).length = cs.length ∧
       ∀ (i : Nat) (c : Commit), cs[i]? = some c →
         (mergeCommits cs e)[i]? = some (if c.sha = e.sha then e else c)) := by
  refine ⟨?_, ?_, ?_⟩
  · unfold mergeCommits
    split
    · rw [List.filter_map]
      have h1 : cs.filter ((fun c => decide (¬ c.sha = e.sha)) ∘
          (fun c => if c.sha = e.sha then e else c)) =
          cs.filter (fun c => decide (¬ c.sha = e.sha)) := by
        apply List.filter_congr
        intro x _
        by_cases h : x.sha = e.sha <;> simp [h, Function.comp]
      rw [h1]
      have h2 : (cs.filter (fun c => decide (¬ c.sha = e.sha))).map
          (fun c => if c.sha = e.sha then e else c) =
          (cs.filter (fun c => decide (¬ c.sha = e.sha))).map id := by
        apply List.map_congr_left
        intro x hx
        have := (List.mem_filter.mp hx).2
        simp only [decide_not, Bool.not_eq_true', decide_eq_false_iff_not] at this
        simp [this]
      rw [h2, List.map_id]
    · simp
  · intro hnin
    unfold mergeCommits
    rw [if_neg hnin]
    refine ⟨by simp, by simp, fun i => by simp⟩
  · intro hin
    unfold mergeCommits
    rw [if_pos hin]
    refine ⟨by simp, fun i c hc => ?_⟩
    simp [List.getElem?_map, hc]

/-- Witness for C10 at concrete inputs: a fresh sha is prepended (length
grows), a matching sha keeps the length. -/
theorem C10_history_merge_frame_witness :
    (mergeCommits [⟨"a", "pa"⟩, ⟨"b", "pb"⟩] ⟨"c", "pc"⟩).length = 3 ∧
    (mergeCommits [⟨"a", "pa"⟩, ⟨"b", "pb"⟩] ⟨"b", "new"⟩).length = 2 :=
  ⟨((C10_history_merge_frame [⟨"a", "pa"⟩, ⟨"b", "pb"⟩] ⟨"c", "pc"⟩).2.1 (by decide)).1,
   ((C10_history_merge_frame [⟨"a", "pa"⟩, ⟨"b", "pb"⟩] ⟨"b", "new"⟩).2.2 (by decide)).1⟩

/-- Witness for C2 at a concrete input: spec example, latency 100 → 115 at
threshold 0.10 is a regression (`change = 0.15 > 0.10`). -/
theorem C2_check_metric_classification_witness :
    check_metric .latency
      { latency := some 115, throughput := none, memory := none }
      { latency := some 100, throughput := none, memory := none }
      (1/10) .increase = some .regression := by
  have h := C2_check_metric_classification (1/10) (by norm_num)
    .latency .increase (by simp [METRICS])
    { latency := some 115, throughput := none, memory := none }
    { latency := some 100, throughput := none, memory := none }
  exact ((h.2 (by norm_num [DBench.metric]) (by norm_num [DBench.metric])).1).mpr
    (by norm_num [DBench.metric, directionalExceeds])

/-- A normal return of the retry loop always writes the content computed
before the loop, on an attempt within the window `[attempt, attempt+fuel)`. -/
theorem putLoop_success (env : PutEnv) (content : History) :
    ∀ (fuel attempt : Nat) (sha : Option String) (delay a : Nat) (w : History)
      (sh : Option String) (d : Nat),
      putLoop env content fuel attempt sha delay = .success a w sh d →
      w = content ∧ attempt ≤ a ∧ a < attempt + fuel := by
  intro fuel
  induction fuel with
  | zero =>
    intro attempt sha delay a w sh d h
    simp [putLoop] at h
  | succ f ih =>
    intro attempt sha delay a w sh d h
    unfold putLoop at h
    rcases e : env.resp attempt with _ | code <;> rw [e] at h <;> dsimp only at h
    · simp only [PutOutcome.success.injEq] at h
      exact ⟨h.2.1.symm, le_of_eq h.1, by omega⟩
    · by_cases hc : code = 409 ∧ attempt < MAX_RETRIES
      · rw [if_pos hc] at h
        obtain ⟨hw, h1, h2⟩ := ih (attempt + 1) _ _ _ _ _ _ h
        exact ⟨hw, by omega, by omega⟩
      · rw [if_neg hc] at h
        exact absurd h (by simp)

/-- The `for` loop of `put_file` never falls through: each attempt either
returns, raises, or hands over to the next attempt, and the last attempt
cannot hand over. -/
theorem putLoop_ne_fellThrough (env : PutEnv) (content : History) :
    ∀ (fuel attempt : Nat) (sha : Option String) (delay : Nat),
      attempt + fuel = MAX_RETRIES + 1 → 1 ≤ fuel →
      putLoop env content fuel attempt sha delay ≠ .fellThrough := by
  intro fuel
  induction fuel with
  | zero => omega
  | succ f ih =>
    intro attempt sha delay hsum _
    unfold putLoop
    rcases e : env.resp attempt with _ | code <;> dsimp only
    · simp
    · by_cases hc : code = 409 ∧ attempt < MAX_RETRIES
      · rw [if_pos hc]
        exact ih (attempt + 1) _ _ (by omega) (by omega)
      · rw [if_neg hc]
        simp

/-- C8: a 409 on a non-final attempt is retried after the fixed
`RETRY_DELAY`; three straight conflicts exhaust the budget and the last
one is raised (the write is not silently dropped and not reported as
success); a non-conflict HTTP error is raised immediately; a success takes
at most `MAX_RETRIES` attempts; the loop never falls through. -/
theorem C8_put_file_conflict_retry (env : PutEnv) (content : History)
    (s0 : Option String) :
    ((env.resp 1 = .http 409 ∧ env.resp 2 = .http 409 ∧ env.resp 3 = .http 409) →
       put_file env content s0 = .raised 409 3 (2 * RETRY_DELAY)) ∧
    (∀ k code, 1 ≤ k → k ≤ MAX_RETRIES →
       (∀ j, 1 ≤ j → j < k → env.resp j = .http 409) →
       env.resp k = .http code → code ≠ 409 →
       put_file env content s0 = .raised code k ((k - 1) * RETRY_DELAY)) ∧
    (∀ a w sh d, put_file env content s0 = .success a w sh d → a ≤ MAX_RETRIES) ∧
    put_file env content s0 ≠ .fellThrough := by
  refine ⟨?_, ?_, ?_, ?_⟩
  · rintro ⟨h1, h2, h3⟩
    simp [put_file, putLoop, h1, h2, h3, MAX_RETRIES, RETRY_DELAY]
  · intro k code hk1 hk3 hprev hk hne
    rw [MAX_RETRIES] at hk3
    interval_cases k
    · simp [put_file, putLoop, hk, hne, MAX_RETRIES]
    · have h1 := hprev 1 (by omega) (by omega)
      simp [put_file, putLoop, h1, hk, hne, MAX_RETRIES, RETRY_DELAY]
    · have h1 := hprev 1 (by omega) (by omega)
      have h2 := hprev 2 (by omega) (by omega)
      simp [put_file, putLoop, h1, h2, hk, MAX_RETRIES, RETRY_DELAY]
  · intro a w sh d h
    have := (putLoop_success env content MAX_RETRIES 1 s0 0 a w sh d h).2.2
    omega
  · exact putLoop_ne_fellThrough env content MAX_RETRIES 1 s0 0 (by omega) (by simp [MAX_RETRIES])

/-- Witness for C8: under the all-conflict store the call raises 409 on
attempt 3 after two `RETRY_DELAY` sleeps. -/
theorem C8_put_file_conflict_retry_witness :
    put_file c8Env (emptyHistory "impl") none = .raised 409 3 (2 * RETRY_DELAY) :=
  (C8_put_file_conflict_retry c8Env (emptyHistory "impl") none).1 ⟨rfl, rfl, rfl⟩

/-- C1 (counterexample): with one conflict before acceptance, the accepted
write carries the merge of the *first* read — here a concurrent commit
visible at the re-read is absent from the content actually written, so the
written content differs from the merge of the last-read state that the
claim asserts. -/
theorem C1_conflict_retry_counterexample :
    put_file c1Env (mergeHistory (some c1FirstDoc) "impl" c1Entry) (some "sha1") =
      .success 2 (mergeHistory (some c1FirstDoc) "impl" c1Entry) (some "sha2") RETRY_DELAY ∧
    mergeHistory (c1Env.refetchDoc 1) "impl" c1Entry ≠
      mergeHistory (some c1FirstDoc) "impl" c1Entry := by
  constructor
  · rfl
  · decide

/-- C1 (amended): if the first `N - 1` attempts are rejected with 409 and
the `N`-th is accepted (`N ≤ MAX_RETRIES`), the operation succeeds and the
accepted write's content is the merge computed from the document state of
the *first* read — the conflict handler refreshes only the version sha
from its re-read, never the content. -/
theorem C1_conflict_retry_first_read (env : PutEnv) (h0 : Option History)
    (impl : String) (e : Commit) (s0 : Option String) (N : Nat)
    (hN1 : 1 ≤ N) (hN3 : N ≤ MAX_RETRIES)
    (hconf : ∀ j, 1 ≤ j → j < N → env.resp j = .http 409)
    (hok : env.resp N = .ok) :
    put_file env (mergeHistory h0 impl e) s0 =
      .success N (mergeHistory h0 impl e) (shaAt env s0 N) ((N - 1) * RETRY_DELAY) := by
  rw [MAX_RETRIES] at hN3
  interval_cases N
  · simp [put_file, putLoop, hok, shaAt]
  · have h1 := hconf 1 (by omega) (by omega)
    simp [put_file, putLoop, h1, hok, shaAt, MAX_RETRIES, RETRY_DELAY]
  · have h1 := hconf 1 (by omega) (by omega)
    have h2 := hconf 2 (by omega) (by omega)
    simp [put_file, putLoop, h1, h2, hok, shaAt, MAX_RETRIES, RETRY_DELAY]

/-- Witness for the amended C1 under the one-conflict store behaviour. -/
theorem C1_conflict_retry_first_read_witness :
    put_file c1Env (mergeHistory (some c1FirstDoc) "impl" c1Entry) (some "sha1") =
      .success 2 (mergeHistory (some c1FirstDoc) "impl" c1Entry)
        (shaAt c1Env (some "sha1") 2) ((2 - 1) * RETRY_DELAY) :=
  C1_conflict_retry_first_read c1Env (some c1FirstDoc) "impl" c1Entry (some "sha1") 2
    (by omega) (by decide)
    (by
      intro j hj1 hj2
      have hj : j = 1 := by omega
      subst hj
      rfl)
    rfl

/-- C7: below the 2-sample minimum the aggregator does not average — with
exactly one snapshot the written baseline is that snapshot verbatim (no
value changed, no rolling_average metadata attached, as the `verbatim`
constructor carries the snapshot unmodified), and with zero snapshots no
baseline is produced at all. -/
theorem C7_baseline_fallback (results : List Snapshot) :
    (∀ s : Snapshot, results = [s] → rollingBaselineMain results = some (.verbatim s)) ∧
    (results = [] → rollingBaselineMain results = none) := by
  constructor
  · rintro s rfl
    simp [rollingBaselineMain, MIN_SAMPLES]
  · rintro rfl
    simp [rollingBaselineMain, MIN_SAMPLES]

/-- Witness for C7: a one-snapshot corpus yields that snapshot verbatim,
an empty corpus yields nothing. -/
theorem C7_baseline_fallback_witness :
    rollingBaselineMain [c7Snap] = some (.verbatim c7Snap) ∧
    rollingBaselineMain [] = none :=
  ⟨(C7_baseline_fallback [c7Snap]).1 c7Snap rfl, (C7_baseline_fallback []).2 rfl⟩

/-- `find?` over `updateFirst` when the update preserves the predicate. -/
theorem find?_updateFirst {α : Type _} (p : α → Bool) (f : α → α)
    (hpf : ∀ a, p (f a) = p a) (l : List α) :
    (updateFirst p f l).find? p = (l.find? p).map f := by
  induction l with
  | nil => rfl
  | cons a rest ih =>
    unfold updateFirst
    by_cases hpa : p a = true
    · rw [if_pos hpa, List.find?_cons_of_pos _ ((hpf a).trans hpa),
        List.find?_cons_of_pos _ hpa]
      rfl
    · rw [if_neg hpa, List.find?_cons_of_neg _ hpa, List.find?_cons_of_neg _ hpa, ih]

/-- `updateFirst` is the identity when nothing matches. -/
theorem updateFirst_of_any_eq_false {α : Type _} (p : α → Bool) (f : α → α)
    (l : List α) (h : l.any p = false) : updateFirst p f l = l := by
  induction l with
  | nil => rfl
  | cons a rest ih =>
    rw [List.any_cons, Bool.or_eq_false_iff] at h
    unfold updateFirst
    rw [if_neg (by simp [h.1]), ih h.2]

/-- The manifest update puts `historyLen` into the (first) entry named
`impl`, found or created. -/
theorem find?_updateManifest (impl sourceRepo : String) (tags : List String)
    (shortSha : String) (historyLen : Nat) (timestamp : String)
    (remote : Option Manifest) :
    ∃ i, (updateManifest impl sourceRepo tags shortSha historyLen timestamp
            remote).implementations.find? (fun i => i.name = impl) = some i ∧
      i.commitCount = historyLen := by
  have hpf1 : ∀ a : Impl,
      (fun i => decide (i.name = impl)) (setCount historyLen shortSha a) =
      (fun i => decide (i.name = impl)) a := fun a => rfl
  have hpf2 : ∀ a : Impl,
      (fun i => decide (i.name = impl)) (setRepoTags impl sourceRepo tags a) =
      (fun i => decide (i.name = impl)) a := by
    intro a
    unfold setRepoTags
    dsimp only
    split <;> split <;> rfl
  have hcount : ∀ a : Impl,
      (setRepoTags impl sourceRepo tags (setCount historyLen shortSha a)).commitCount =
        historyLen := by
    intro a
    unfold setRepoTags setCount
    dsimp only
    split <;> split <;> rfl
  simp only [updateManifest]
  cases hfound : (remote.getD { implementations := [], lastUpdated := timestamp
      }).implementations.any (fun i => decide (i.name = impl))
  case false =>
    have hnone : (remote.getD { implementations := [], lastUpdated := timestamp
        }).implementations.find? (fun i => decide (i.name = impl)) = none := by
      rw [List.find?_eq_none]
      rw [List.any_eq_false] at hfound
      exact hfound
    rw [updateFirst_of_any_eq_false _ _ _ hfound,
      updateFirst_of_any_eq_false _ _ _ hfound, if_neg (by simp)]
    refine ⟨{ name := impl, itype := "tracked", commitCount := historyLen,
              latestCommit := shortSha,
              repo := if sourceRepo ≠ "" ∧ sourceRepo ≠ impl
                      then some sourceRepo else none,
              tags := tags }, ?_, rfl⟩
    rw [List.find?_append, hnone]
    simp
  case true =>
    obtain ⟨i0, hi0⟩ : ∃ i0, (remote.getD { implementations := [], lastUpdated := timestamp
        }).implementations.find? (fun i => decide (i.name = impl)) = some i0 := by
      rw [List.any_eq_true] at hfound
      obtain ⟨x, hx, hpx⟩ := hfound
      exact Option.isSome_iff_exists.mp (List.find?_isSome.mpr ⟨x, hx, hpx⟩)
    rw [if_pos rfl, find?_updateFirst _ _ hpf2, find?_updateFirst _ _ hpf1, hi0]
    exact ⟨_, rfl, hcount i0⟩

/-- C6: after a run in which both conditional writes succeed, the manifest
entry for the current implementation (updated in place or newly created)
carries `commitCount` equal to the length of the commits list of the
history document written in the same run. -/
theorem C6_manifest_commit_count (impl sourceRepo : String) (tags : List String)
    (entry : Commit) (shortSha timestamp : String) (s : RemoteState) :
    ∃ hist m,
      (runMain impl sourceRepo tags entry shortSha timestamp true true s).ok = true ∧
      (runMain impl sourceRepo tags entry shortSha timestamp true true s).final.history = some hist ∧
      (runMain impl sourceRepo tags entry shortSha timestamp true true s).final.manifest = some m ∧
      ∃ i, m.implementations.find? (fun i => i.name = impl) = some i ∧
        i.commitCount = hist.commits.length := by
  refine ⟨mergeHistory s.history impl entry,
    updateManifest impl sourceRepo tags shortSha
      (mergeHistory s.history impl entry).commits.length timestamp s.manifest,
    ?_, ?_, ?_, ?_⟩
  · rfl
  · rfl
  · rfl
  · exact find?_updateManifest impl sourceRepo tags shortSha _ timestamp s.manifest

/-- C9: within one run the history write strictly precedes the manifest
write — the manifest is only attempted (and only written) after the
history write returned; a failure between the two leaves the manifest
exactly as read (stale) while the history already holds the merged
document; a failure of the history write leaves both documents
untouched. -/
theorem C9_history_write_precedes_manifest (impl sourceRepo : String)
    (tags : List String) (entry : Commit) (shortSha timestamp : String)
    (histPutOk manPutOk : Bool) (s : RemoteState) :
    ((runMain impl sourceRepo tags entry shortSha timestamp histPutOk manPutOk s).attemptedManifest = true →
       (runMain impl sourceRepo tags entry shortSha timestamp histPutOk manPutOk s).wroteHistory = true) ∧
    ((runMain impl sourceRepo tags entry shortSha timestamp histPutOk manPutOk s).wroteManifest = true →
       (runMain impl sourceRepo tags entry shortSha timestamp histPutOk manPutOk s).wroteHistory = true) ∧
    ((runMain impl sourceRepo tags entry shortSha timestamp histPutOk manPutOk s).wroteHistory = true ∧
     (runMain impl sourceRepo tags entry shortSha timestamp histPutOk manPutOk s).wroteManifest = false →
       (runMain impl sourceRepo tags entry shortSha timestamp histPutOk manPutOk s).final.manifest = s.manifest ∧
       (runMain impl sourceRepo tags entry shortSha timestamp histPutOk manPutOk s).final.history =
         some (mergeHistory s.history impl entry)) ∧
    ((runMain impl sourceRepo tags entry shortSha timestamp histPutOk manPutOk s).wroteHistory = false →
       (runMain impl sourceRepo tags entry shortSha timestamp histPutOk manPutOk s).final = s) := by
  cases histPutOk <;> cases manPutOk <;> simp [runMain]

/-- Witness for C9: with a failing manifest write after a successful
history write, the manifest is left as read. -/
theorem C9_history_write_precedes_manifest_witness :
    (runMain "impl" "" [] c1Entry "ss" "ts" true false
      { history := none, manifest := none }).final.manifest = none :=
  ((C9_history_write_precedes_manifest "impl" "" [] c1Entry "ss" "ts" true false
      { history := none, manifest := none }).2.2.1 ⟨rfl, rfl⟩).1

/-- Lookup distributes over append, first list first. -/
theorem lookupA_append {β : Type _} (l1 l2 : List (String × β)) (k : String) :
    lookupA (l1 ++ l2) k = (lookupA l1 k).or (lookupA l2 k) := by
  induction l1 with
  | nil => rfl
  | cons a rest ih =>
    rcases a with ⟨ka, va⟩
    by_cases h : ka = k <;> simp [lookupA, h, ih]

/-- Unfolding lemma for `lookupA` on a cons cell. -/
theorem lookupA_cons {β : Type _} (ka : String) (va : β)
    (rest : List (String × β)) (key : String) :
    lookupA ((ka, va) :: rest) key = if ka = key then some va else lookupA rest key :=
  rfl

/-- Unfolding lemma for `updateA` on a cons cell. -/
theorem updateA_cons {β : Type _} (ka : String) (va : β)
    (rest : List (String × β)) (k : String) (f : β → β) :
    updateA ((ka, va) :: rest) k f =
      (if ka = k then (ka, f va) else (ka, va)) :: updateA rest k f :=
  rfl

/-- Lookup after a keyed update: the looked-up value is mapped exactly at
the updated key. -/
theorem lookupA_updateA {β : Type _} (l : List (String × β)) (k : String)
    (f : β → β) (key : String) :
    lookupA (updateA l k f) key =
      if k = key then (lookupA l key).map f else lookupA l key := by
  induction l with
  | nil =>
    show (none : Option β) = if k = key then Option.map f none else none
    by_cases hkk : k = key
    · rw [if_pos hkk]
      rfl
    · rw [if_neg hkk]
  | cons a rest ih =>
    rcases a with ⟨ka, va⟩
    rw [updateA_cons]
    by_cases hk : ka = k
    · subst hk
      rw [if_pos rfl, lookupA_cons, lookupA_cons]
      by_cases hkey : ka = key
      · subst hkey
        rw [if_pos rfl, if_pos rfl, if_pos rfl]
        rfl
      · rw [if_neg hkey, if_neg hkey, if_neg hkey, ih, if_neg hkey]
    · rw [if_neg hk, lookupA_cons, lookupA_cons]
      by_cases hkey : ka = key
      · subst hkey
        have hkk : ¬ k = ka := fun h => hk h.symm
        rw [if_pos rfl, if_neg hkk, if_pos rfl]
      · rw [if_neg hkey, if_neg hkey, ih]

/-- `containsKey` agrees with lookup success. -/
theorem containsKey_eq_isSome {β : Type _} (l : List (String × β)) (k : String) :
    containsKey l k = (lookupA l k).isSome := by
  induction l with
  | nil => rfl
  | cons a rest ih =>
    rcases a with ⟨ka, va⟩
    rw [lookupA_cons]
    by_cases h : ka = k
    · simp [containsKey, h]
    · rw [if_neg h]
      simpa [containsKey, h] using ih

/-- Lookup commutes with mapping the values of an association list. -/
theorem lookupA_mapValues {β γ : Type _} (g : β → γ) (l : List (String × β))
    (k : String) :
    lookupA (l.map (fun kv => (kv.1, g kv.2))) k = (lookupA l k).map g := by
  induction l with
  | nil => rfl
  | cons a rest ih =>
    rcases a with ⟨ka, va⟩
    by_cases h : ka = k <;> simp [lookupA, h, ih]

/-- Lookup through the create-if-absent step of the collection loop. -/
theorem lookupA_ensure (acc : List (String × Agg)) (pk : String) (pb : BBench)
    (name : String) :
    lookupA (if containsKey acc pk then acc
             else acc ++ [(pk, { latencies := [], throughputs := [], sample := pb })]) name =
      if pk = name then
        some ((lookupA acc name).getD { latencies := [], throughputs := [], sample := pb })
      else lookupA acc name := by
  cases hs : containsKey acc pk
  · rw [if_neg (by simp), lookupA_append]
    have hnone : lookupA acc pk = none := by
      have h := containsKey_eq_isSome acc pk
      rw [hs] at h
      cases hl : lookupA acc pk
      · rfl
      · rw [hl] at h
        simp at h
    by_cases hpk : pk = name
    · subst hpk
      rw [hnone, lookupA_cons, if_pos rfl, if_pos rfl]
      rfl
    · rw [if_neg hpk, lookupA_cons, if_neg hpk]
      show (lookupA acc name).or (lookupA [] name) = lookupA acc name
      rw [show lookupA ([] : List (String × Agg)) name = none from rfl, Option.or_none]
  · rw [if_pos rfl]
    by_cases hpk : pk = name
    · subst hpk
      have hsome : (lookupA acc pk).isSome := by
        rw [← containsKey_eq_isSome, hs]
      obtain ⟨a0, ha0⟩ := Option.isSome_iff_exists.mp hsome
      rw [if_pos rfl, ha0]
      rfl
    · rw [if_neg hpk]

/-- Lookup after one iteration of the collection loop: exactly the entry
for the item's own benchmark name is created/extended. -/
theorem stepBench_lookup (acc : List (String × Agg)) (p : String × BBench)
    (name : String) :
    lookupA (stepBench acc p) name =
      if p.1 = name then
        some (aggExtend ((lookupA acc name).getD
          { latencies := [], throughputs := [], sample := p.2 }) p.2)
      else lookupA acc name := by
  rcases p with ⟨pk, pb⟩
  unfold stepBench
  dsimp only
  rcases hl : pb.latency with _ | ml <;>
    rcases ht : pb.throughput with _ | mt <;>
    by_cases hpk : pk = name <;>
    simp [lookupA_updateA, lookupA_ensure, hpk, aggExtend, hl, ht]

/-- `combineAgg` over a some accumulator appends the collected samples. -/
theorem combineAgg_some (a : Agg) (os : List BBench) :
    combineAgg (some a) os =
      some { latencies := a.latencies ++ os.filterMap (fun b => b.latency.map Metric.value),
             throughputs := a.throughputs ++ os.filterMap (fun b => b.throughput.map Metric.value),
             sample := a.sample } := by
  induction os generalizing a with
  | nil => simp [combineAgg]
  | cons b rest ih =>
    show combineAgg (some (aggExtend a b)) rest = _
    rw [ih]
    rcases hbl : b.latency with _ | m1 <;> rcases hbt : b.throughput with _ | m2 <;>
      simp [aggExtend, hbl, hbt, List.filterMap_cons]

/-- `combineAgg` from nothing: the head occurrence is the sample, the
values are all collected occurrences in order. -/
theorem combineAgg_none_cons (b : BBench) (os : List BBench) :
    combineAgg none (b :: os) =
      some { latencies := (b :: os).filterMap (fun x => x.latency.map Metric.value),
             throughputs := (b :: os).filterMap (fun x => x.throughput.map Metric.value),
             sample := b } := by
  show combineAgg (some (aggExtend { latencies := [], throughputs := [], sample := b } b)) os = _
  rw [combineAgg_some]
  rcases hbl : b.latency with _ | m1 <;> rcases hbt : b.throughput with _ | m2 <;>
    simp [aggExtend, hbl, hbt, List.filterMap_cons]

/-- Invariant of the collection fold: the accumulator entry under `name`
is the combination of the initial entry with all occurrences of `name`
in the remaining items. -/
theorem foldl_stepBench_lookup (P : List (String × BBench))
    (acc : List (String × Agg)) (name : String) :
    lookupA (P.foldl stepBench acc) name =
      combineAgg (lookupA acc name) (occsP P name) := by
  induction P generalizing acc with
  | nil => rfl
  | cons p rest ih =>
    rw [List.foldl_cons, ih]
    by_cases hpk : p.1 = name
    · rw [show occsP (p :: rest) name = p.2 :: occsP rest name from by
        simp [occsP, List.filter_cons, hpk]]
      rw [stepBench_lookup, if_pos hpk]
      rcases hs : lookupA acc name with _ | a0 <;> rfl
    · rw [show occsP (p :: rest) name = occsP rest name from by
        simp [occsP, List.filter_cons, hpk]]
      rw [stepBench_lookup, if_neg hpk]

/-- The nested collection loop equals the fold over the flattened item
list. -/
theorem collectBenchData_eq_foldl_flatten (results : List Snapshot) :
    collectBenchData results =
      ((results.map Snapshot.benchmarks).flatten).foldl stepBench [] := by
  rw [List.foldl_flatten, List.foldl_map]
  rfl

/-- No occurrences under a key that is absent from the key list. -/
theorem occsP_of_not_mem_keys (l : List (String × BBench)) (name : String)
    (h : name ∉ l.map Prod.fst) : occsP l name = [] := by
  have hfil : l.filter (fun p => decide (p.1 = name)) = [] := by
    rw [List.filter_eq_nil_iff]
    intro kv hkv hdec
    simp only [decide_eq_true_eq] at hdec
    exact h (hdec ▸ List.mem_map_of_mem Prod.fst hkv)
  simp [occsP, hfil]

/-- With unique keys (a parsed JSON object), the occurrence list under a
key is exactly the looked-up entry. -/
theorem occsP_of_nodupKeys (l : List (String × BBench)) (name : String)
    (hnd : (l.map Prod.fst).Nodup) :
    occsP l name = (lookupA l name).toList := by
  induction l with
  | nil => rfl
  | cons a rest ih =>
    rcases a with ⟨ka, vb⟩
    rw [List.map_cons, List.nodup_cons] at hnd
    by_cases hk : ka = name
    · subst hk
      rw [lookupA_cons, if_pos rfl]
      rw [show occsP ((ka, vb) :: rest) ka = vb :: occsP rest ka from by
        simp [occsP, List.filter_cons]]
      rw [occsP_of_not_mem_keys rest ka hnd.1]
      rfl
    · rw [lookupA_cons, if_neg hk, ← ih hnd.2]
      simp [occsP, List.filter_cons, hk]

/-- Occurrences across the flattened window are the per-snapshot looked-up
entries, when each snapshot's benchmark keys are unique. -/
theorem occsP_flatten (results : List Snapshot) (name : String)
    (hnd : ∀ r ∈ results, (r.benchmarks.map Prod.fst).Nodup) :
    occsP ((results.map Snapshot.benchmarks).flatten) name =
      snapshotEntries results name := by
  induction results with
  | nil => rfl
  | cons r rest ih =>
    rw [List.map_cons, List.flatten_cons,
      show occsP (r.benchmarks ++ (rest.map Snapshot.benchmarks).flatten) name =
        occsP r.benchmarks name ++ occsP ((rest.map Snapshot.benchmarks).flatten) name from by
          simp [occsP, List.filter_append],
      occsP_of_nodupKeys r.benchmarks name (hnd r (by simp)),
      ih (fun x hx => hnd x (by simp [hx]))]
    rcases h : lookupA r.benchmarks name with _ | b <;>
      simp [snapshotEntries, List.filterMap_cons, h]

/-- C4 (counterexample): on a 2-snapshot window where benchmark "b" has
memory values 10 and 20 (mean 15 after rounding), the computed baseline
entry carries *no* memory metric at all — memory is not averaged like
latency and throughput, contradicting the claim's "latency, throughput,
and memory alike". -/
theorem C4_rolling_average_counterexample :
    (lookupA (calculate_average_baseline [c4Snap1, c4Snap2]).benchmarks "b").map
        BBench.memory = some none ∧
    memValues [c4Snap1, c4Snap2] "b" = [10, 20] ∧
    round2 (mean (memValues [c4Snap1, c4Snap2] "b")) = 15 := by
  have h2 : memValues [c4Snap1, c4Snap2] "b" = [10, 20] := rfl
  refine ⟨rfl, h2, ?_⟩
  rw [h2]
  norm_num [mean, round2, roundHalfEven, List.sum_cons, List.sum_nil]

/-- C4 (amended): on a window of at least 2 snapshots with well-formed
(unique-key) benchmark mappings, every benchmark name occurring in the
window gets a baseline entry whose latency and throughput each equal the
arithmetic mean of that metric's values over the snapshots that contain
the benchmark, rounded to 2 decimals, with the unit taken from the
first-seen sample (defaulting to "ns" / "ops/s"); the entry carries no
memory metric; and the document metadata carries
`baseline_type = "rolling_average"` and `sample_count` = window size. -/
theorem C4_rolling_average_amended (results : List Snapshot)
    (hlen : 2 ≤ results.length)
    (hnd : ∀ r ∈ results, (r.benchmarks.map Prod.fst).Nodup)
    (name : String) (hne : snapshotEntries results name ≠ []) :
    ∃ bb, lookupA (calculate_average_baseline results).benchmarks name = some bb ∧
      (bb.latency = if latValues results name = [] then none
        else some { value := round2 (mean (latValues results name)),
                    unit := (((firstSample results name).bind BBench.latency).map
                      Metric.unit).getD "ns" }) ∧
      (bb.throughput = if thrValues results name = [] then none
        else some { value := round2 (mean (thrValues results name)),
                    unit := (((firstSample results name).bind BBench.throughput).map
                      Metric.unit).getD "ops/s" }) ∧
      bb.memory = none ∧
      ∃ m, (calculate_average_baseline results).metadata = some m ∧
        m.baseline_type = some "rolling_average" ∧
        m.sample_count = some results.length := by
  obtain ⟨b, os, hos⟩ : ∃ b os, snapshotEntries results name = b :: os := by
    rcases h : snapshotEntries results name with _ | ⟨b, os⟩
    · exact absurd h hne
    · exact ⟨b, os, rfl⟩
  have hlat : latValues results name =
      (b :: os).filterMap (fun x => x.latency.map Metric.value) := by
    unfold latValues
    rw [hos]
  have hthr : thrValues results name =
      (b :: os).filterMap (fun x => x.throughput.map Metric.value) := by
    unfold thrValues
    rw [hos]
  have hfs : firstSample results name = some b := by
    unfold firstSample
    rw [hos]
    rfl
  rcases results with _ | ⟨r0, rest⟩
  · simp at hlen
  · have hbench : lookupA (calculate_average_baseline (r0 :: rest)).benchmarks name =
        (lookupA (collectBenchData (r0 :: rest)) name).map mkBenchBaseline := by
      show lookupA ((collectBenchData (r0 :: rest)).map
        (fun na => (na.1, mkBenchBaseline na.2))) name = _
      exact lookupA_mapValues _ _ _
    rw [hbench, collectBenchData_eq_foldl_flatten, foldl_stepBench_lookup,
      show lookupA ([] : List (String × Agg)) name = none from rfl,
      occsP_flatten _ _ hnd, hos, combineAgg_none_cons]
    refine ⟨_, rfl, ?_, ?_, rfl, ⟨_, rfl, rfl, rfl⟩⟩
    · rw [hlat, hfs]
      rcases hE : (b :: os).filterMap (fun x => x.latency.map Metric.value) with _ | ⟨v, vs⟩ <;>
        simp [mkBenchBaseline, mean, hE]
    · rw [hthr, hfs]
      rcases hE : (b :: os).filterMap (fun x => x.throughput.map Metric.value) with _ | ⟨v, vs⟩ <;>
        simp [mkBenchBaseline, mean, hE]

/-- Witness for the amended C4 on the concrete 2-snapshot corpus: the
baseline entry for "b" exists, its latency is the rounded mean 15 ns, and
it has no memory metric. -/
theorem C4_rolling_average_amended_witness :
    ∃ bb, lookupA (calculate_average_baseline [c4Snap1, c4Snap2]).benchmarks "b" = some bb ∧
      bb.memory = none := by
  obtain ⟨bb, hbb, _, _, hmem, _⟩ := C4_rolling_average_amended [c4Snap1, c4Snap2]
    (by decide) (by decide) "b" (by decide)
  exact ⟨bb, hbb, hmem⟩

end BenchAction
